import Mathlib

/-!
Verification of the `sled-table` typed multi-table indexing layer.

The development shallowly embeds the library's core data model and
operations:

* a byte-level model of the shared ordered keyspace and of the table
  iterator's id-prefix boundary rule (`src/lib.rs`, `Iter::next`);
* a map-level model of the reversible (bidirectional) writer
  (`src/reversible.rs`) and of the timestamped writer (`src/timestamp.rs`);
* a sorted-association-list model of a table `Reader` together with the
  unsigned binary search over an integer domain
  (`src/unsigned_binary_search.rs`, `find_max` / `find_pred`), with the
  `u`-typed wrapping arithmetic made explicit (`% 2 ^ w`).

Machine integers of width `w` are modelled as `Nat` with explicit
wrap-around where the source performs unsigned arithmetic.  Fallible
operations return `Option`; a `panic!`-style abort is modelled as a
distinguished result (`none` / a dedicated constructor).
-/

namespace SledTable

/-! ### Point-map model of a single table

`reversible::Writer` and `timestamp::Writer` only use the point
operations `get` / `set` / `del` of the underlying tables, so for those
components each table is modelled as a point map to `Option`.  `mapSet` and
`mapDel` are the models of `Writer::set` and `Writer::del` on one table
(namespace isolation between the two tables sharing the `sled::Tree` is
established separately at the byte level). -/

def mapSet [DecidableEq α] (m : α → Option β) (a : α) (b : β) : α → Option β :=
  fun x => if x = a then some b else m x

def mapDel [DecidableEq α] (m : α → Option β) (a : α) : α → Option β :=
  fun x => if x = a then none else m x

/-! ### Reversible writer (`src/reversible.rs`) -/

/-- State of a reversible pair of tables: the forward table `T` and the
reverse table `T'` (`reversible::Writer { table, reverse_table }`). -/
structure RevState (K V : Type) where
  fwd : K → Option V
  rev : V → Option K

/-- Model of `reversible::Writer::set`.  The source first runs
`assert_eq!(self.table.get(key)..is_some(), self.reverse_table.get(value)..is_some())`
and panics when the two presences differ; the panic is modelled by
returning `none`.  On success it writes `(key -> value)` into the forward
table and `(value -> key)` into the reverse table. -/
def revSet [DecidableEq K] [DecidableEq V] (s : RevState K V) (k : K) (v : V) :
    Option (RevState K V) :=
  if (s.fwd k).isSome = (s.rev v).isSome then
    some { fwd := mapSet s.fwd k v, rev := mapSet s.rev v k }
  else none

/-- Model of `reversible::Writer::del`: delete `key` from the forward
table; if a value was present, also delete that value from the reverse
table, and return the removed value. -/
def revDel [DecidableEq K] [DecidableEq V] (s : RevState K V) (k : K) :
    RevState K V × Option V :=
  match s.fwd k with
  | none => (s, none)
  | some v => ({ fwd := mapDel s.fwd k, rev := mapDel s.rev v }, some v)

/-- One reversible-writer operation. -/
inductive RevOp (K V : Type)
  | set (k : K) (v : V)
  | del (k : K)

/-- Apply one operation; `none` models an aborted (`panic!`ed) `set`. -/
def revApply [DecidableEq K] [DecidableEq V] (s : RevState K V) :
    RevOp K V → Option (RevState K V)
  | RevOp.set k v => revSet s k v
  | RevOp.del k => some (revDel s k).1

/-- Run a sequence of reversible-writer operations; `none` as soon as one
`set` aborts. -/
def revRun [DecidableEq K] [DecidableEq V] (s : RevState K V) :
    List (RevOp K V) → Option (RevState K V)
  | [] => some s
  | op :: ops =>
    match revApply s op with
    | none => none
    | some s' => revRun s' ops

/-- The bidirectional invariant of a reversible pair: `k` maps to `v` in
the forward table iff `v` maps to `k` in the reverse table. -/
def RevInv (s : RevState K V) : Prop :=
  ∀ k v, s.fwd k = some v ↔ s.rev v = some k

/-- Guard under which a reversible `set` actually preserves the
invariant: the pair is fresh (both sides absent) or re-asserts the
existing mapping.  `del` needs no guard. -/
def RevGuard (s : RevState K V) : RevOp K V → Prop
  | RevOp.set k v =>
    (s.fwd k = none ∧ s.rev v = none) ∨ (s.fwd k = some v ∧ s.rev v = some k)
  | RevOp.del _ => True

/-- Every operation of the sequence is guarded at its application point
(no constraint past an aborting `set`, where the run stops anyway). -/
def RevGuardedFrom [DecidableEq K] [DecidableEq V] (s : RevState K V) :
    List (RevOp K V) → Prop
  | [] => True
  | op :: ops =>
    RevGuard s op ∧ ∀ s', revApply s op = some s' → RevGuardedFrom s' ops

/-! ### Timestamped writer (`src/timestamp.rs`) -/

/-- State of a timestamped pair: the primary table and the secondary
timestamp table keyed by `Key { timestamp, key }` with unit values
(`timestamp::Reader { table, timestamp_table }`).  Timestamps are
modelled as `Nat`. -/
structure TsState (K V : Type) where
  tbl : K → Option V
  tst : Nat × K → Option Unit

/-- Model of `timestamp::Writer::set`: compute `ts = value_timestamp v`,
delete the secondary entry `(ts, key)`, write `(key -> value)` into the
primary table, then write `((ts, key) -> ())` into the secondary table. -/
def tsSet [DecidableEq K] (tsOf : V → Nat) (s : TsState K V) (k : K) (v : V) :
    TsState K V :=
  let ts := tsOf v
  { tbl := mapSet s.tbl k v,
    tst := mapSet (mapDel s.tst (ts, k)) (ts, k) () }

/-- Model of `timestamp::Writer::del`: delete `key` from the primary
table; if a value was present, derive its timestamp and delete the
matching secondary entry; return the removed value. -/
def tsDel [DecidableEq K] (tsOf : V → Nat) (s : TsState K V) (k : K) :
    TsState K V × Option V :=
  match s.tbl k with
  | some v => ({ tbl := mapDel s.tbl k, tst := mapDel s.tst (tsOf v, k) }, some v)
  | none => (s, none)

/-- One timestamped-writer operation. -/
inductive TsOp (K V : Type)
  | set (k : K) (v : V)
  | del (k : K)

/-- Apply one timestamped-writer operation (neither one aborts). -/
def tsApply [DecidableEq K] (tsOf : V → Nat) (s : TsState K V) :
    TsOp K V → TsState K V
  | TsOp.set k v => tsSet tsOf s k v
  | TsOp.del k => (tsDel tsOf s k).1

/-- Run a sequence of timestamped-writer operations. -/
def tsRun [DecidableEq K] (tsOf : V → Nat) (s : TsState K V) :
    List (TsOp K V) → TsState K V
  | [] => s
  | op :: ops => tsRun tsOf (tsApply tsOf s op) ops

/-- The intended invariant of the timestamped pair: `k` has value `v` in
the primary table iff the composite key `(timestamp v, k)` is present in
the secondary table (stated as the two directions, so that it is also
meaningful for a non-injective timestamp function). -/
def TsInv (tsOf : V → Nat) (s : TsState K V) : Prop :=
  (∀ k v, s.tbl k = some v → s.tst (tsOf v, k) = some ()) ∧
  (∀ t k, s.tst (t, k) = some () → ∃ v, s.tbl k = some v ∧ tsOf v = t)

/-- Guard under which a timestamped `set` preserves the invariant: the
new value's timestamp agrees with the timestamp of any value it
overwrites.  `del` needs no guard. -/
def TsGuard (tsOf : V → Nat) (s : TsState K V) : TsOp K V → Prop
  | TsOp.set k v => ∀ v₀, s.tbl k = some v₀ → tsOf v₀ = tsOf v
  | TsOp.del _ => True

/-- Every operation of the sequence is guarded at its application point. -/
def TsGuardedFrom [DecidableEq K] (tsOf : V → Nat) (s : TsState K V) :
    List (TsOp K V) → Prop
  | [] => True
  | op :: ops => TsGuard tsOf s op ∧ TsGuardedFrom tsOf (tsApply tsOf s op) ops

/-! ### Byte-level model of the shared keyspace and the table iterator

Physical keys are byte strings (`List Nat`).  The underlying store's
`scan(start)` yields the entries whose key is byte-lexicographically
greater than or equal to `start`, in ascending order.  `Iter::next`
(`src/lib.rs`) slices the id prefix off each physical key, decodes it,
and hard-stops the sequence as soon as the decoded id differs from the
table's id.  For byte-vector tables the key codec is the identity, so
the logical key is the remainder of the physical key and the value is
kept opaque. -/

/-- Byte-lexicographic strict order on physical keys. -/
def lexLt : List Nat → List Nat → Bool
  | [], [] => false
  | [], _ :: _ => true
  | _ :: _, [] => false
  | a :: as, b :: bs => if a < b then true else if a = b then lexLt as bs else false

/-- The store's raw scan: all entries with key greater than or equal to
`start` (on a sorted store this is the suffix starting at `start`). -/
def sledScan (start : List Nat) (store : List (List Nat × V)) : List (List Nat × V) :=
  store.filter fun e => !lexLt e.1 start

/-- How a run of `Iter::next` calls ends: the raw scan was exhausted or
crossed into another table's id (`done`), the id-prefix slice was out of
bounds (`panicked`, the panic of `id_key_bytes[..id_len]`), or the id
failed to decode (`failed`, the `Some(Err(..))` element after which a
consumer collecting a `Result` stops). -/
inductive IterEnd
  | done
  | panicked
  | failed
deriving DecidableEq

/-- Model of repeatedly calling `Iter::next` (`src/lib.rs`): for each raw
entry, slice `id_bytes = key[..id_len]` (a slice out of bounds when the
key is shorter than `id_len`), decode the id, hard-stop when it differs
from the table's id, else yield the remainder of the key with the value.
Returns the yielded entries together with how the run ended. -/
def iterRun (idLen : Nat) (decodeId : List Nat → Option I) (tid : I) [DecidableEq I] :
    List (List Nat × V) → List (List Nat × V) × IterEnd
  | [] => ([], IterEnd.done)
  | (kb, vb) :: rest =>
    if kb.length < idLen then ([], IterEnd.panicked)
    else
      match decodeId (kb.take idLen) with
      | none => ([], IterEnd.failed)
      | some i =>
        if tid = i then
          let r := iterRun idLen decodeId tid rest
          ((kb.drop idLen, vb) :: r.1, r.2)
        else ([], IterEnd.done)

/-- The bytekey codec for a `u8` table id: exactly one byte. -/
def decodeU8 (bs : List Nat) : Option Nat :=
  match bs with
  | [b] => some b
  | _ => none

/-! ### Unsigned binary search (`src/unsigned_binary_search.rs`)

The search loop of `find_pred` / `find_max` is generic over the table
entry type `E` and interacts with the table only through
`probe a = table.scan(from_unsigned_integer a).next()` and a qualifying
condition on the probed entry (`find_max` accepts every entry;
`find_pred` tests `k <= key` resp. `k < key`).  The `u`-typed arithmetic
of the source wraps modulo `2 ^ w`; `wadd` / `wsub` make this explicit.
The loop halves `step` each iteration starting from `MAX / 2 + 1`, so it
runs exactly `w` iterations; the recursion is driven by a fuel argument
which `find_pred` / `find_max` instantiate with `w`. -/

/-- Wrapping unsigned addition of `w`-bit integers. -/
def wadd (w a b : Nat) : Nat := (a + b) % 2 ^ w

/-- Wrapping unsigned subtraction of `w`-bit integers (`b ≤ 2 ^ w`). -/
def wsub (w a b : Nat) : Nat := (a + (2 ^ w - b)) % 2 ^ w

/-- The search loop shared by `find_pred` and `find_max`: while
`step != 0`, halve `step`, probe `attempt`; if the probe yields an entry
satisfying `cond`, record it and move `attempt` up by the halved step,
otherwise move it down; finally return the recorded entry. -/
def bsLoop (probe : Nat → Option E) (cond : E → Bool) (w : Nat) :
    Nat → Nat → Nat → Option E → Option E
  | 0, _, _, greatest => greatest
  | fuel + 1, attempt, step, greatest =>
    if step = 0 then greatest
    else
      let step2 := step / 2
      match probe attempt with
      | some e =>
        if cond e then bsLoop probe cond w fuel (wadd w attempt step2) step2 (some e)
        else bsLoop probe cond w fuel (wsub w attempt step2) step2 greatest
      | none => bsLoop probe cond w fuel (wsub w attempt step2) step2 greatest

/-- The same loop in exact (non-wrapping) arithmetic, additionally
recording every value taken by `attempt`.  Proving it equal to `bsLoop`
is what certifies that the source's unsigned updates never wrap. -/
def bsLoopT (probe : Nat → Option E) (cond : E → Bool) :
    Nat → Nat → Nat → Option E → Option E × List Nat
  | 0, _, _, greatest => (greatest, [])
  | fuel + 1, attempt, step, greatest =>
    if step = 0 then (greatest, [])
    else
      let step2 := step / 2
      let r :=
        match probe attempt with
        | some e =>
          if cond e then bsLoopT probe cond fuel (attempt + step2) step2 (some e)
          else bsLoopT probe cond fuel (attempt - step2) step2 greatest
        | none => bsLoopT probe cond fuel (attempt - step2) step2 greatest
      (r.1, attempt :: r.2)

/-- Whether the probe at integer `a` yields an entry satisfying `cond`. -/
def bsQual (probe : Nat → Option E) (cond : E → Bool) (a : Nat) : Bool :=
  match probe a with
  | some e => cond e
  | none => false

/-! ### Sorted-association-list model of a table `Reader`

For the ordered operations (`scan(..).next()`, `get`) a table is a list
of entries sorted strictly ascending by key.  `scanNextL` is
`scan(key).next()`: the first entry whose key is greater than or equal
to the given key.  The key order is passed explicitly as a boolean
comparison, matching the `PartialOrd` bound of the source. -/

/-- `table.scan(k).next()`: first entry with key at least `k`. -/
def scanNextL (le : K → K → Bool) (tbl : List (K × V)) (k : K) : Option (K × V) :=
  tbl.find? fun e => le k e.1

/-- `table.get(k)`: the value stored at exactly `k`. -/
def getL [DecidableEq K] (tbl : List (K × V)) (k : K) : Option V :=
  (tbl.find? fun e => decide (e.1 = k)).map Prod.snd

/-- Model of `unsigned_binary_search::find_pred`: binary search over the
`w`-bit integer domain with `attempt = step = MAX / 2 + 1` initially;
if the loop records no candidate, fall back to a direct `get` on the key
decoded from integer `0` (the fallback does not re-check the
predicate). -/
def find_pred [DecidableEq K] (w : Nat) (le lt : K → K → Bool) (fromU : Nat → K)
    (tbl : List (K × V)) (key : K) (inclusive : Bool) : Option (K × V) :=
  let attempt := (2 ^ w - 1) / 2 + 1
  let greatest := bsLoop (fun a => scanNextL le tbl (fromU a))
    (fun e => if inclusive then le e.1 key else lt e.1 key) w w attempt attempt none
  if greatest.isNone then (getL tbl (fromU 0)).map fun v => (fromU 0, v) else greatest

/-- Model of `unsigned_binary_search::find_max`: identical to the
`find_pred` loop except that every probed entry qualifies. -/
def find_max [DecidableEq K] (w : Nat) (le : K → K → Bool) (fromU : Nat → K)
    (tbl : List (K × V)) : Option (K × V) :=
  let attempt := (2 ^ w - 1) / 2 + 1
  let greatest := bsLoop (fun a => scanNextL le tbl (fromU a))
    (fun _ => true) w w attempt attempt none
  if greatest.isNone then (getL tbl (fromU 0)).map fun v => (fromU 0, v) else greatest

/-- Order on `Nat` keys as a boolean comparison. -/
def natLe (a b : Nat) : Bool := decide (a ≤ b)

/-- Strict order on `Nat` keys as a boolean comparison. -/
def natLt (a b : Nat) : Bool := decide (a < b)

/-- `find_max` for a table whose key type is its own `w`-bit unsigned
integer domain (the `u8`..`u64`/`usize` impls, where
`from_unsigned_integer` is the identity). -/
def findMaxNat (w : Nat) (tbl : List (Nat × V)) : Option (Nat × V) :=
  find_max w natLe id tbl

/-- `find_pred` for a table keyed by its own unsigned integer domain. -/
def findPredNat (w : Nat) (tbl : List (Nat × V)) (key : Nat) (inclusive : Bool) :
    Option (Nat × V) :=
  find_pred w natLe natLt id tbl key inclusive

/-! ### The timestamp table's composite keys

`timestamp::Key { timestamp, key }` is ordered lexicographically
(timestamp first), and its `UnsignedBinarySearchKey` impl maps integer
`u` to `Key { timestamp: from u, key: min_key }`.  Timestamps and keys
are modelled as `Nat` (minimum key `0`). -/

/-- Lexicographic order on composite `(timestamp, key)` keys. -/
def lexLePair (a b : Nat × Nat) : Bool :=
  if a.1 < b.1 then true else if a.1 = b.1 then decide (a.2 ≤ b.2) else false

/-- Strict lexicographic order on composite `(timestamp, key)` keys. -/
def lexLtPair (a b : Nat × Nat) : Bool :=
  if a.1 < b.1 then true else if a.1 = b.1 then decide (a.2 < b.2) else false

/-- The `UnsignedBinarySearchKey` impl for `timestamp::Key`: integer `u`
becomes the composite key `(u, min_key)`. -/
def tsKeyFromU (u : Nat) : Nat × Nat := (u, 0)

/-- Model of `timestamp::Reader::pred_incl`: run the inclusive
`find_pred` on the secondary table at the composite key
`(timestamp, min_key)` and project the result back to a timestamp. -/
def tsPredIncl (w : Nat) (tst : List ((Nat × Nat) × Unit)) (ts : Nat) : Option Nat :=
  (find_pred w lexLePair lexLtPair tsKeyFromU tst (ts, 0) true).map fun e => e.1.1

/-- Model of `timestamp::Reader::pred`: the non-inclusive variant. -/
def tsPred (w : Nat) (tst : List ((Nat × Nat) × Unit)) (ts : Nat) : Option Nat :=
  (find_pred w lexLePair lexLtPair tsKeyFromU tst (ts, 0) false).map fun e => e.1.1

/-! ### Timestamp-ordered iteration (`timestamp::Iter` / `IterRange`)

`Reader::scan(ts)` scans the secondary table from `(ts, min_key)`; each
yielded `(timestamp, key)` is materialised by looking `key` up in the
primary table, panicking when the value is missing or its recomputed
timestamp disagrees.  `IterRange` additionally stops at the first entry
whose timestamp reaches the exclusive upper bound. -/

/-- Run of `timestamp::IterRange` over the scanned tail of the secondary
table: `none` models the panic of `timestamp::Iter::next` (missing
primary value, or timestamp mismatch). -/
def tsIterRangeRun (tsOf : V → Nat) (tbl : K → Option V) (endEx : Option Nat) :
    List ((Nat × K) × Unit) → Option (List (K × V))
  | [] => some []
  | ((t, k), _) :: rest =>
    match tbl k with
    | none => none
    | some v =>
      if t = tsOf v then
        match endEx with
        | some e =>
          if e ≤ tsOf v then some []
          else (tsIterRangeRun tsOf tbl endEx rest).map fun l => (k, v) :: l
        | none => (tsIterRangeRun tsOf tbl endEx rest).map fun l => (k, v) :: l
      else none

/-- Model of `timestamp::Reader::scan_range`: scan the secondary table
from `(start, min_key)` where `start` is the optional inclusive lower
bound (defaulting to the minimum timestamp), bounded above by the
optional exclusive upper bound. -/
def tsScanRange (tsOf : V → Nat) (tbl : Nat → Option V) (tst : List ((Nat × Nat) × Unit))
    (startIncl : Option Nat) (endEx : Option Nat) : Option (List (Nat × V)) :=
  let start := startIncl.getD 0
  tsIterRangeRun tsOf tbl endEx (tst.filter fun e => lexLePair (start, 0) e.1)

/-- Whether a timestamp is below the optional exclusive upper bound. -/
def belowB : Option Nat → Nat → Bool
  | none, _ => true
  | some e, t => decide (t < e)

/-! ### Concrete states used by counterexamples and witnesses -/

/-- The empty reversible pair over `Nat` keys and values. -/
def revEmptyNN : RevState Nat Nat :=
  { fwd := fun _ => none, rev := fun _ => none }

/-- The run `set 1 10; set 2 20; set 1 20` from the empty reversible
pair.  Each presence check passes (in the last `set`, key `1` is present
in the forward table and value `20` is present in the reverse table), so
no step aborts. -/
def revChainC4 : Option (RevState Nat Nat) :=
  (revSet revEmptyNN 1 10).bind fun s1 =>
    (revSet s1 2 20).bind fun s2 => revSet s2 1 20

/-- The state reached by `revChainC4`. -/
def revStateC4 : RevState Nat Nat :=
  { fwd := mapSet (mapSet (mapSet revEmptyNN.fwd 1 10) 2 20) 1 20,
    rev := mapSet (mapSet (mapSet revEmptyNN.rev 10 1) 20 2) 20 1 }

/-- The empty timestamped pair over `Nat` keys and values. -/
def tsEmptyNN : TsState Nat Nat :=
  { tbl := fun _ => none, tst := fun _ => none }

/-- The state after `set 0 8; set 0 4` with the identity timestamp
function: the overwrite changes key `0`'s timestamp from `8` to `4`. -/
def tsStateC5 : TsState Nat Nat :=
  tsSet id (tsSet id tsEmptyNN 0 8) 0 4

/-- Primary table of the concrete timestamped scenario: key `0` holds a
value of timestamp `8`, key `4` a value of timestamp `4` (values are
identified with their timestamps). -/
def tbl6 : Nat → Option Nat :=
  fun k => if k = 0 then some 8 else if k = 4 then some 4 else none

/-- Secondary table of the concrete timestamped scenario, sorted by
`(timestamp, key)`. -/
def tst6 : List ((Nat × Nat) × Unit) :=
  [((4, 4), ()), ((8, 0), ())]

/-! ## Theorems -/

/-! ### Point-map helper lemmas -/

theorem mapSet_same [DecidableEq α] (m : α → Option β) (a : α) (b : β) :
    mapSet m a b a = some b := by
  simp [mapSet]

theorem mapSet_other [DecidableEq α] (m : α → Option β) (a : α) (b : β) {x : α}
    (h : x ≠ a) : mapSet m a b x = m x := by
  simp [mapSet, h]

theorem mapDel_same [DecidableEq α] (m : α → Option β) (a : α) : mapDel m a a = none := by
  simp [mapDel]

theorem mapDel_other [DecidableEq α] (m : α → Option β) (a : α) {x : α}
    (h : x ≠ a) : mapDel m a x = m x := by
  simp [mapDel, h]

/-! ### Claim C7: the reversible `set` precondition check -/

/-- Claim C7: `reversible::Writer::set(k, v)` aborts exactly when the
presence of `k` in the forward table differs from the presence of `v`
in the reverse table; when the presences agree it writes `(k -> v)` into
the forward table and `(v -> k)` into the reverse table, leaving every
other point of both tables unchanged. -/
theorem revSet_abort_iff [DecidableEq K] [DecidableEq V] (s : RevState K V) (k : K) (v : V) :
    (revSet s k v = none ↔ (s.fwd k).isSome ≠ (s.rev v).isSome) ∧
    ∀ s', revSet s k v = some s' →
      s'.fwd k = some v ∧ s'.rev v = some k ∧
      (∀ k', k' ≠ k → s'.fwd k' = s.fwd k') ∧
      (∀ v', v' ≠ v → s'.rev v' = s.rev v') := by
  constructor
  · unfold revSet
    split
    · simp [*]
    · simp [*]
  · intro s' h
    unfold revSet at h
    split at h
    · cases h
      refine ⟨mapSet_same _ _ _, mapSet_same _ _ _, ?_, ?_⟩
      · intro k' hk'
        exact mapSet_other _ _ _ hk'
      · intro v' hv'
        exact mapSet_other _ _ _ hv'
    · cases h

/-- Witness for C7: on the empty pair, `set 1 2` does not abort, and the
state it produces maps `1` to `2` forward and `2` to `1` backward. -/
theorem revSet_abort_iff_witness :
    revSet revEmptyNN 1 2 = some { fwd := mapSet revEmptyNN.fwd 1 2,
                                   rev := mapSet revEmptyNN.rev 2 1 } ∧
    (mapSet revEmptyNN.fwd 1 2) 1 = some 2 ∧ (mapSet revEmptyNN.rev 2 1) 2 = some 1 := by
  have h := (revSet_abort_iff revEmptyNN 1 2).2
    { fwd := mapSet revEmptyNN.fwd 1 2, rev := mapSet revEmptyNN.rev 2 1 } rfl
  exact ⟨rfl, h.1, h.2.1⟩

/-! ### Claim C4: the reversible bidirectional invariant -/

/-- Counterexample to C4 as stated: the run `set 1 10; set 2 20; set 1 20`
completes without aborting (each presence check passes), yet in the final
state the forward table maps `2` to `20` while the reverse table maps
`20` to `1`, so the bidirectional invariant is broken. -/
theorem revRun_inv_counterexample :
    revChainC4 = some revStateC4 ∧ revStateC4.fwd 2 = some 20 ∧
    revStateC4.rev 20 = some 1 ∧ ¬ RevInv revStateC4 := by
  refine ⟨rfl, by decide, by decide, ?_⟩
  intro hInv
  have h := (hInv 2 20).mp (by decide)
  rw [show revStateC4.rev 20 = some 1 from by decide] at h
  exact absurd (Option.some.inj h) (by decide)

/-- Helper for C4: `reversible::Writer::del` always preserves the
bidirectional invariant. -/
theorem revDel_preserves_inv [DecidableEq K] [DecidableEq V] {s : RevState K V} (k : K)
    (hInv : RevInv s) : RevInv (revDel s k).1 := by
  rcases hfk : s.fwd k with _ | v
  · simpa [revDel, hfk] using hInv
  · simp only [revDel, hfk]
    intro k' v'
    show mapDel s.fwd k k' = some v' ↔ mapDel s.rev v v' = some k'
    by_cases hk : k' = k
    · rw [hk, mapDel_same]
      by_cases hv : v' = v
      · rw [hv, mapDel_same]
        simp
      · rw [mapDel_other _ _ hv]
        constructor
        · intro h
          cases h
        · intro h
          have h2 := (hInv k v').mpr h
          rw [hfk] at h2
          exact absurd (Option.some.inj h2).symm hv
    · rw [mapDel_other _ _ hk]
      by_cases hv : v' = v
      · rw [hv, mapDel_same]
        constructor
        · intro h
          have h2 := (hInv k' v).mp h
          have h3 := (hInv k v).mp hfk
          rw [h3] at h2
          exact absurd (Option.some.inj h2).symm hk
        · intro h
          cases h
      · rw [mapDel_other _ _ hv]
        exact hInv k' v'

/-- Helper for C4: a guarded, non-aborting `reversible::Writer::set`
preserves the bidirectional invariant. -/
theorem revSet_preserves_inv [DecidableEq K] [DecidableEq V] {s s' : RevState K V}
    {k : K} {v : V} (hInv : RevInv s)
    (hG : (s.fwd k = none ∧ s.rev v = none) ∨ (s.fwd k = some v ∧ s.rev v = some k))
    (h : revSet s k v = some s') : RevInv s' := by
  unfold revSet at h
  split at h
  · cases h
    intro k' v'
    show mapSet s.fwd k v k' = some v' ↔ mapSet s.rev v k v' = some k'
    by_cases hk : k' = k
    · rw [hk, mapSet_same]
      by_cases hv : v' = v
      · rw [hv, mapSet_same]
        simp
      · rw [mapSet_other _ _ _ hv]
        constructor
        · intro hh
          exact absurd (Option.some.inj hh).symm hv
        · intro hh
          have h2 := (hInv k v').mpr hh
          rcases hG with ⟨hf, _⟩ | ⟨hf, _⟩
          · rw [hf] at h2
            cases h2
          · rw [hf] at h2
            exact absurd (Option.some.inj h2).symm hv
    · rw [mapSet_other _ _ _ hk]
      by_cases hv : v' = v
      · rw [hv, mapSet_same]
        constructor
        · intro hh
          have h2 := (hInv k' v).mp hh
          rcases hG with ⟨_, hr⟩ | ⟨_, hr⟩
          · rw [hr] at h2
            cases h2
          · rw [hr] at h2
            exact absurd (Option.some.inj h2).symm hk
        · intro hh
          exact absurd (Option.some.inj hh).symm hk
      · rw [mapSet_other _ _ _ hv]
        exact hInv k' v'
  · cases h

/-- Claim C4 (amended): a non-aborting run of reversible-writer
operations preserves the bidirectional invariant provided every `set` in
it is applied to a fresh pair (key and value both absent) or re-asserts
the pair already recorded; an unguarded overwrite such as the
counterexample's third `set` breaks the invariant without aborting. -/
theorem revRun_preserves_inv [DecidableEq K] [DecidableEq V] :
    ∀ (ops : List (RevOp K V)) (s s' : RevState K V), RevInv s →
      RevGuardedFrom s ops → revRun s ops = some s' → RevInv s' := by
  intro ops
  induction ops with
  | nil =>
    intro s s' hInv _ h
    cases h
    exact hInv
  | cons op rest ih =>
    intro s s' hInv hG hrun
    unfold revRun at hrun
    rcases happ : revApply s op with _ | s1
    · rw [happ] at hrun
      cases hrun
    · rw [happ] at hrun
      have hInv1 : RevInv s1 := by
        cases op with
        | set k v => exact revSet_preserves_inv hInv hG.1 happ
        | del k =>
          have h2 : s1 = (revDel s k).1 := (Option.some.inj happ).symm
          rw [h2]
          exact revDel_preserves_inv k hInv
      exact ih s1 s' hInv1 (hG.2 s1 happ) hrun

/-- Witness for C4 (amended): the guarded run `set 1 10; del 1` from the
empty pair leaves the invariant intact. -/
theorem revRun_preserves_inv_witness :
    RevInv { fwd := mapDel (mapSet revEmptyNN.fwd 1 10) 1,
             rev := mapDel (mapSet revEmptyNN.rev 10 1) 10 } := by
  refine revRun_preserves_inv [RevOp.set 1 10, RevOp.del 1] revEmptyNN _ ?_ ?_ ?_
  · intro k v
    simp [revEmptyNN]
  · refine ⟨Or.inl ⟨rfl, rfl⟩, ?_⟩
    intro s1 h1
    rw [show revApply revEmptyNN (RevOp.set 1 10) =
        some { fwd := mapSet revEmptyNN.fwd 1 10, rev := mapSet revEmptyNN.rev 10 1 }
      from rfl] at h1
    cases h1
    exact ⟨trivial, fun s2 _ => trivial⟩
  · rfl

/-! ### Claim C5: the timestamped invariant -/

/-- Counterexample to C5 as stated: after `set 0 (ts 8); set 0 (ts 4)`
(with values identified with their timestamps), the stale secondary
entry `(8, 0)` is still present although key `0` now holds a value of
timestamp `4`, so the invariant is broken by a timestamp-changing
overwrite. -/
theorem tsRun_inv_counterexample :
    tsStateC5.tbl 0 = some 4 ∧ tsStateC5.tst (8, 0) = some () ∧ ¬ TsInv id tsStateC5 := by
  refine ⟨by decide, by decide, ?_⟩
  intro hInv
  obtain ⟨v, hv, hts⟩ := hInv.2 8 0 (by decide)
  rw [show tsStateC5.tbl 0 = some 4 from by decide] at hv
  have h4 : v = 4 := (Option.some.inj hv).symm
  rw [h4] at hts
  exact absurd hts (by decide)

/-- Helper for C5: a timestamped `set` whose value keeps the timestamp of
any value it overwrites preserves the invariant. -/
theorem tsSet_preserves_inv [DecidableEq K] (tsOf : V → Nat) {s : TsState K V}
    {k : K} {v : V} (hInv : TsInv tsOf s)
    (hG : ∀ v₀, s.tbl k = some v₀ → tsOf v₀ = tsOf v) :
    TsInv tsOf (tsSet tsOf s k v) := by
  constructor
  · intro k' v' h
    simp only [tsSet] at h ⊢
    by_cases hk : k' = k
    · subst hk
      rw [mapSet_same] at h
      cases h
      exact mapSet_same _ _ _
    · rw [mapSet_other _ _ _ hk] at h
      have h2 := hInv.1 k' v' h
      have hne : (tsOf v', k') ≠ (tsOf v, k) := fun hc => hk (congrArg Prod.snd hc)
      rw [mapSet_other _ _ _ hne, mapDel_other _ _ hne]
      exact h2
  · intro t k' h
    simp only [tsSet] at h ⊢
    by_cases hp : (t, k') = (tsOf v, k)
    · have ht : t = tsOf v := congrArg Prod.fst hp
      have hk : k' = k := congrArg Prod.snd hp
      subst ht
      subst hk
      exact ⟨v, mapSet_same _ _ _, rfl⟩
    · rw [mapSet_other _ _ _ hp, mapDel_other _ _ hp] at h
      obtain ⟨v₀, hv₀, hts⟩ := hInv.2 t k' h
      by_cases hk : k' = k
      · subst hk
        have : (t, k') = (tsOf v, k') := by
          rw [← hts, hG v₀ hv₀]
        exact absurd this hp
      · exact ⟨v₀, by rw [mapSet_other _ _ _ hk]; exact hv₀, hts⟩

/-- Helper for C5: a timestamped `del` always preserves the invariant. -/
theorem tsDel_preserves_inv [DecidableEq K] (tsOf : V → Nat) {s : TsState K V} (k : K)
    (hInv : TsInv tsOf s) : TsInv tsOf (tsDel tsOf s k).1 := by
  rcases hfk : s.tbl k with _ | v₀
  · simpa [tsDel, hfk] using hInv
  · simp only [tsDel, hfk]
    constructor
    · intro k' v' h
      simp only at h ⊢
      by_cases hk : k' = k
      · subst hk
        rw [mapDel_same] at h
        cases h
      · rw [mapDel_other _ _ hk] at h
        have h2 := hInv.1 k' v' h
        have hne : (tsOf v', k') ≠ (tsOf v₀, k) := fun hc => hk (congrArg Prod.snd hc)
        rw [mapDel_other _ _ hne]
        exact h2
    · intro t k' h
      simp only at h ⊢
      by_cases hp : (t, k') = (tsOf v₀, k)
      · rw [hp, mapDel_same] at h
        cases h
      · rw [mapDel_other _ _ hp] at h
        obtain ⟨v', hv', hts⟩ := hInv.2 t k' h
        by_cases hk : k' = k
        · subst hk
          rw [hfk] at hv'
          have : v' = v₀ := Option.some.inj hv'.symm
          subst this
          exact absurd (by rw [← hts]) hp
        · exact ⟨v', by rw [mapDel_other _ _ hk]; exact hv', hts⟩

/-- Claim C5 (amended): a run of timestamped-writer operations preserves
the primary/secondary invariant provided no `set` in it changes the
timestamp of a value it overwrites; a timestamp-changing overwrite such
as the counterexample's second `set` leaves a stale secondary entry. -/
theorem tsRun_preserves_inv [DecidableEq K] (tsOf : V → Nat) :
    ∀ (ops : List (TsOp K V)) (s : TsState K V), TsInv tsOf s →
      TsGuardedFrom tsOf s ops → TsInv tsOf (tsRun tsOf s ops) := by
  intro ops
  induction ops with
  | nil =>
    intro s hInv _
    exact hInv
  | cons op rest ih =>
    intro s hInv hG
    have hInv1 : TsInv tsOf (tsApply tsOf s op) := by
      cases op with
      | set k v => exact tsSet_preserves_inv tsOf hInv hG.1
      | del k => exact tsDel_preserves_inv tsOf k hInv
    exact ih (tsApply tsOf s op) hInv1 hG.2

/-- Witness for C5 (amended): the guarded run
`set 0 (ts 8); set 0 (ts 8); del 0` from the empty pair (the overwrite
keeps the timestamp) preserves the invariant. -/
theorem tsRun_preserves_inv_witness :
    TsInv id (tsRun id tsEmptyNN [TsOp.set 0 8, TsOp.set 0 8, TsOp.del 0]) := by
  refine tsRun_preserves_inv id _ tsEmptyNN ⟨?_, ?_⟩ ?_
  · intro k v h
    simp [tsEmptyNN] at h
  · intro t k h
    simp [tsEmptyNN] at h
  · refine ⟨?_, ?_, trivial, trivial⟩
    · intro v₀ h
      simp [tsEmptyNN] at h
    · intro v₀ h
      have h8 : v₀ = 8 := by
        simpa [tsApply, tsSet, mapSet, tsEmptyNN] using h.symm
      rw [h8]

/-! ### Claims C3 and C10: the table iterator boundary rule -/

/-- Helper for C3: with one-byte ids, a run of `Iter::next` over any raw
scan tail whose keys are all nonempty yields exactly the id-stripped
prefix of entries up to (and excluding) the first key whose leading byte
is not the table's id. -/
theorem iterRun_eq_takeWhile (bId : Nat) (l : List (List Nat × V))
    (hne : ∀ e ∈ l, e.1 ≠ []) :
    (iterRun 1 decodeU8 bId l).1 =
      (l.takeWhile fun e => decide (e.1.head? = some bId)).map fun e => (e.1.drop 1, e.2) := by
  induction l with
  | nil => rfl
  | cons e rest ih =>
    obtain ⟨kb, vb⟩ := e
    rcases kb with _ | ⟨c, ktail⟩
    · exact absurd rfl (hne ([], vb) (List.mem_cons_self _ _))
    · have ihr := ih fun x hx => hne x (List.mem_cons_of_mem _ hx)
      by_cases hbc : bId = c
      · subst hbc
        simp [iterRun, decodeU8, ihr]
      · have hbc2 : c ≠ bId := fun hc => hbc hc.symm
        simp [iterRun, decodeU8, hbc, hbc2]

/-- Claim C3: for two tables A and B with distinct one-byte ids sharing
one store, iterating B (from any scan start, covering both `iter()` and
`scan(key)`) yields exactly the entries up to the first physical key
whose decoded id byte differs from B's id — the iterator hard-stops
there rather than skipping — and every yielded entry is a physical entry
of the store with B's id prefix, never one written with A's id. -/
theorem iter_table_isolation (aId bId : Nat) (hab : aId ≠ bId)
    (store : List (List Nat × V))
    (hshape : ∀ e ∈ store, (∃ k, e.1 = aId :: k) ∨ (∃ k, e.1 = bId :: k))
    (start : List Nat) :
    (iterRun 1 decodeU8 bId (sledScan start store)).1 =
      ((sledScan start store).takeWhile fun e => decide (e.1.head? = some bId)).map
        (fun e => (e.1.drop 1, e.2)) ∧
    ∀ p ∈ (iterRun 1 decodeU8 bId (sledScan start store)).1,
      (bId :: p.1, p.2) ∈ store := by
  have hsub : ∀ e ∈ sledScan start store, e ∈ store := by
    intro e he
    exact (List.mem_filter.mp he).1
  have hne : ∀ e ∈ sledScan start store, e.1 ≠ [] := by
    intro e he
    rcases hshape e (hsub e he) with ⟨k, hk⟩ | ⟨k, hk⟩ <;> simp [hk]
  have h1 := iterRun_eq_takeWhile bId (sledScan start store) hne
  refine ⟨h1, ?_⟩
  intro p hp
  rw [h1] at hp
  obtain ⟨e, he, hpe⟩ := List.mem_map.mp hp
  have hmem : e ∈ sledScan start store := (List.takeWhile_prefix _).subset he
  have hhead : e.1.head? = some bId := by
    have := List.mem_takeWhile_imp he
    exact of_decide_eq_true this
  rcases hshape e (hsub e hmem) with ⟨k, hk⟩ | ⟨k, hk⟩
  · rw [hk] at hhead
    exact absurd (Option.some.inj (by simpa using hhead)) hab
  · have hkey : bId :: p.1 = e.1 := by
      rw [hk, ← hpe, hk]
      rfl
    have hval : p.2 = e.2 := by
      rw [← hpe]
    rw [show (bId :: p.1, p.2) = e from by rw [hkey, hval]]
    exact hsub e hmem

/-- Witness for C3: ids 3 (table A) and 1 (table B) with B's id the
numerically smaller one; iterating B yields only B's two entries and
stops before A's entry. -/
theorem iter_table_isolation_witness :
    (iterRun 1 decodeU8 1
      (sledScan [1] [([1, 5], 10), ([1, 7], 20), ([3, 2], 30)])).1 =
        [([5], 10), ([7], 20)] ∧
    (((1 : Nat) :: [5], (10 : Nat)) ∈ [([1, 5], 10), ([1, 7], 20), ([3, 2], 30)]) := by
  have h := iter_table_isolation 3 1 (by decide)
    [([1, 5], 10), ([1, 7], 20), ([3, 2], 30)] ?_ [1]
  · refine ⟨h.1.trans (by decide), ?_⟩
    exact h.2 ([5], 10) (by rw [h.1]; decide)
  · intro e he
    fin_cases he
    · exact Or.inr ⟨[5], rfl⟩
    · exact Or.inr ⟨[7], rfl⟩
    · exact Or.inl ⟨[2], rfl⟩

/-- Claim C10: `Iter::next` never panics when every physical key the raw
scan yields is at least `id_len` bytes long, and conversely a raw entry
whose key is shorter than `id_len` makes the next call panic on the
out-of-bounds prefix slice instead of yielding an error value or ending
the sequence. -/
theorem iter_next_panic_condition (I V : Type) [DecidableEq I] (idLen : Nat)
    (decId : List Nat → Option I) (tid : I) :
    (∀ l : List (List Nat × V), (∀ e ∈ l, idLen ≤ e.1.length) →
      (iterRun idLen decId tid l).2 ≠ IterEnd.panicked) ∧
    (∀ (kb : List Nat) (vb : V) (rest : List (List Nat × V)), kb.length < idLen →
      iterRun idLen decId tid ((kb, vb) :: rest) = ([], IterEnd.panicked)) := by
  constructor
  · intro l
    induction l with
    | nil =>
      intro _
      simp [iterRun]
    | cons e rest ih =>
      intro hlen
      obtain ⟨kb, vb⟩ := e
      have hk : idLen ≤ kb.length := hlen (kb, vb) (List.mem_cons_self _ _)
      simp only [iterRun]
      rw [if_neg (by omega)]
      cases hdec : decId (kb.take idLen) with
      | none => simp
      | some i =>
        by_cases hti : tid = i
        · simp only [if_pos hti]
          exact ih fun x hx => hlen x (List.mem_cons_of_mem _ hx)
        · simp [hti]
  · intro kb vb rest hshort
    simp [iterRun, hshort]

/-- Witness for C10: with a two-byte id length, a one-byte physical key
panics the iterator, while a well-formed scan tail never panics. -/
theorem iter_next_panic_condition_witness :
    iterRun 2 decodeU8 0 ([([5], 7)] : List (List Nat × Nat)) = ([], IterEnd.panicked) ∧
    (iterRun 2 decodeU8 0 ([([1, 2], 7), ([9, 9, 9], 8)] : List (List Nat × Nat))).2 ≠
      IterEnd.panicked := by
  have h := iter_next_panic_condition Nat Nat 2 decodeU8 0
  exact ⟨h.2 [5] 7 [] (by decide), h.1 _ (by decide)⟩

/-! ### Claim C6: timestamp range scans -/

/-- Helper for C6: over a consistent scan tail, `IterRange` yields
exactly the prefix of entries whose timestamp is below the optional
exclusive upper bound, each materialised through the primary table. -/
theorem tsIterRangeRun_eq (tsOf : V → Nat) (tbl : K → Option V) (endEx : Option Nat)
    (l : List ((Nat × K) × Unit))
    (hcons : ∀ e ∈ l, ∃ v, tbl e.1.2 = some v ∧ tsOf v = e.1.1) :
    tsIterRangeRun tsOf tbl endEx l =
      some ((l.takeWhile fun e => belowB endEx e.1.1).filterMap
        fun e => (tbl e.1.2).map fun v => (e.1.2, v)) := by
  induction l with
  | nil => rfl
  | cons e rest ih =>
    obtain ⟨⟨t, k⟩, u⟩ := e
    obtain ⟨v, hv, hts⟩ := hcons ((t, k), u) (List.mem_cons_self _ _)
    have ihr := ih fun x hx => hcons x (List.mem_cons_of_mem _ hx)
    cases endEx with
    | none => simp [tsIterRangeRun, hv, hts, belowB, ihr]
    | some b =>
      by_cases hb : b ≤ t
      · simp [tsIterRangeRun, hv, hts, belowB, hb, Nat.not_lt.mpr hb]
      · simp [tsIterRangeRun, hv, hts, belowB, hb, Nat.not_le.mp hb, ihr]

/-- Helper for C6: on a list sorted for an order along which the
predicate is downward closed, `takeWhile` agrees with `filter`. -/
theorem takeWhile_eq_filter_of_mono {α : Type} (p : α → Bool) {r : α → α → Prop}
    (hmono : ∀ a b, r a b → p b = true → p a = true) :
    ∀ l : List α, List.Pairwise r l → l.takeWhile p = l.filter p := by
  intro l
  induction l with
  | nil => intro _; rfl
  | cons a l ih =>
    intro hp
    have hra := (List.pairwise_cons.mp hp).1
    have hpl := (List.pairwise_cons.mp hp).2
    cases hpa : p a with
    | true => simp [List.takeWhile_cons, List.filter_cons, hpa, ih hpl]
    | false =>
      have hnil : l.filter p = [] := by
        rw [List.filter_eq_nil_iff]
        intro x hx hpx
        have := hmono a x (hra x hx) (by simpa using hpx)
        rw [this] at hpa
        cases hpa
      simp [List.takeWhile_cons, List.filter_cons, hpa, hnil]

/-- Helper for C6 and C8: the strict lexicographic order on composite
keys is monotone in the timestamp component. -/
theorem lexLtPair_fst_le {a b : Nat × Nat} (h : lexLtPair a b = true) : a.1 ≤ b.1 := by
  unfold lexLtPair at h
  split at h
  · omega
  · split at h
    · omega
    · cases h

/-- Claim C6: over a consistent, `(timestamp, key)`-sorted secondary
table, `scan_range(lower?, upper?)` yields exactly the entries whose
timestamp is at least the optional inclusive lower bound and strictly
below the optional exclusive upper bound, in secondary-table
(timestamp-ascending) order, each materialised from the primary table;
the run stops lazily at the first entry at or past the upper bound. -/
theorem tsScanRange_spec (tsOf : V → Nat) (tbl : Nat → Option V)
    (tst : List ((Nat × Nat) × Unit))
    (hs : List.Pairwise (fun a b => lexLtPair a.1 b.1 = true) tst)
    (hcons : ∀ e ∈ tst, ∃ v, tbl e.1.2 = some v ∧ tsOf v = e.1.1)
    (lo hi : Option Nat) :
    tsScanRange tsOf tbl tst lo hi =
      some ((tst.filter fun e => belowB hi e.1.1 && lexLePair (lo.getD 0, 0) e.1).filterMap
        fun e => (tbl e.1.2).map fun v => (e.1.2, v)) := by
  unfold tsScanRange
  have hconsS : ∀ e ∈ tst.filter fun e => lexLePair (lo.getD 0, 0) e.1,
      ∃ v, tbl e.1.2 = some v ∧ tsOf v = e.1.1 := by
    intro e he
    exact hcons e (List.mem_filter.mp he).1
  rw [tsIterRangeRun_eq tsOf tbl hi _ hconsS]
  congr 1
  have hsS : List.Pairwise (fun a b => lexLtPair a.1 b.1 = true)
      (tst.filter fun e => lexLePair (lo.getD 0, 0) e.1) := hs.filter _
  rw [takeWhile_eq_filter_of_mono (fun e => belowB hi e.1.1) ?hmono _ hsS,
    List.filter_filter]
  case hmono =>
    intro a b hr hpb
    cases hi with
    | none => rfl
    | some e =>
      have h1 : b.1.1 < e := by simpa [belowB] using hpb
      have h2 := lexLtPair_fst_le hr
      simp [belowB]
      omega

/-- Witness for C6: the concrete scenario with timestamps 8 and 4 stored
under keys 0 and 4: `scan_range(6..)`, `scan_range(..6)`,
`scan_range(5..8)` and the full range. -/
theorem tsScanRange_spec_witness :
    tsScanRange id tbl6 tst6 (some 6) none = some [(0, 8)] ∧
    tsScanRange id tbl6 tst6 none (some 6) = some [(4, 4)] ∧
    tsScanRange id tbl6 tst6 (some 5) (some 8) = some [] ∧
    tsScanRange id tbl6 tst6 none none = some [(4, 4), (0, 8)] := by
  have hs : List.Pairwise (fun a b => lexLtPair a.1 b.1 = true) tst6 := by decide
  have hc : ∀ e ∈ tst6, ∃ v, tbl6 e.1.2 = some v ∧ id v = e.1.1 := by
    intro e he
    fin_cases he
    · exact ⟨4, rfl, rfl⟩
    · exact ⟨8, rfl, rfl⟩
  exact ⟨(tsScanRange_spec id tbl6 tst6 hs hc (some 6) none).trans (by decide),
    (tsScanRange_spec id tbl6 tst6 hs hc none (some 6)).trans (by decide),
    (tsScanRange_spec id tbl6 tst6 hs hc (some 5) (some 8)).trans (by decide),
    (tsScanRange_spec id tbl6 tst6 hs hc none none).trans (by decide)⟩

/-! ### The unsigned binary search loop -/

/-- The initial `attempt = MAX / 2 + 1` of the search is `2 ^ (w - 1)`. -/
theorem bs_start_eq (j : Nat) : (2 ^ (j + 1) - 1) / 2 + 1 = 2 ^ j := by
  have h1 : 2 ^ (j + 1) = 2 * 2 ^ j := by
    rw [pow_succ]
    ring
  have h2 : 1 ≤ 2 ^ j := Nat.one_le_two_pow
  omega

/-- Wrapping addition agrees with exact addition below `2 ^ w`. -/
theorem wadd_eq (w a b : Nat) (h : a + b < 2 ^ w) : wadd w a b = a + b :=
  Nat.mod_eq_of_lt h

/-- Wrapping subtraction agrees with exact subtraction when it does not
underflow. -/
theorem wsub_eq (w a b : Nat) (hba : b ≤ a) (ha : a < 2 ^ w) : wsub w a b = a - b := by
  unfold wsub
  have hb : b ≤ 2 ^ w := le_trans hba (le_of_lt ha)
  have he : a + (2 ^ w - b) = 2 ^ w + (a - b) := by omega
  rw [he, Nat.add_mod_left]
  exact Nat.mod_eq_of_lt (by omega)

/-- The search loop with wrapping arithmetic coincides with the traced
exact-arithmetic loop: along the loop invariant
(`2 ^ j ≤ attempt` and `attempt + 2 ^ j ≤ 2 ^ w` at step `2 ^ j`),
no update wraps. -/
theorem bsLoop_eq_bsLoopT (probe : Nat → Option E) (cond : E → Bool) (w : Nat) :
    ∀ j a g, 2 ^ j ≤ a → a + 2 ^ j ≤ 2 ^ w →
      bsLoop probe cond w (j + 1) a (2 ^ j) g = (bsLoopT probe cond (j + 1) a (2 ^ j) g).1 := by
  intro j
  induction j with
  | zero =>
    intro a g h1 h2
    simp only [pow_zero] at h1 h2
    have ha : a < 2 ^ w := by omega
    have h0 : wadd w a 0 = a + 0 := wadd_eq w a 0 (by omega)
    have h0' : wsub w a 0 = a - 0 := wsub_eq w a 0 (by omega) ha
    simp only [pow_zero, bsLoop, bsLoopT, Nat.reduceDiv, one_ne_zero, if_false]
    cases hp : probe a with
    | some e =>
      by_cases hc : cond e
      · simp [hp, hc, bsLoop, bsLoopT, h0]
      · simp [hp, hc, bsLoop, bsLoopT, h0']
    | none => simp [hp, bsLoop, bsLoopT, h0']
  | succ j ih =>
    intro a g h1 h2
    have hpow : 2 ^ (j + 1) = 2 ^ j + 2 ^ j := by
      rw [pow_succ]
      ring
    have hj0 : 1 ≤ 2 ^ j := Nat.one_le_two_pow
    have hstep : 2 ^ (j + 1) / 2 = 2 ^ j := by omega
    have hne : 2 ^ (j + 1) ≠ 0 := by omega
    simp only [bsLoop, bsLoopT, hstep, hne, if_false]
    cases hp : probe a with
    | some e =>
      by_cases hc : cond e
      · have hw : wadd w a (2 ^ j) = a + 2 ^ j := wadd_eq w a (2 ^ j) (by omega)
        simp only [hp, hc, if_true, hw]
        exact ih (a + 2 ^ j) (some e) (by omega) (by omega)
      · have hw : wsub w a (2 ^ j) = a - 2 ^ j := wsub_eq w a (2 ^ j) (by omega) (by omega)
        simp only [hp, hc, if_false, hw]
        exact ih (a - 2 ^ j) g (by omega) (by omega)
    | none =>
      have hw : wsub w a (2 ^ j) = a - 2 ^ j := wsub_eq w a (2 ^ j) (by omega) (by omega)
      simp only [hp, hw]
      exact ih (a - 2 ^ j) g (by omega) (by omega)

/-- Every value taken by `attempt` along the (exact-arithmetic) search
loop stays within `[1, 2 ^ w - 1]` under the loop invariant. -/
theorem bsLoopT_trace_bounds (probe : Nat → Option E) (cond : E → Bool) (w : Nat) :
    ∀ j a g, 2 ^ j ≤ a → a + 2 ^ j ≤ 2 ^ w →
      ∀ x ∈ (bsLoopT probe cond (j + 1) a (2 ^ j) g).2, 1 ≤ x ∧ x ≤ 2 ^ w - 1 := by
  intro j
  induction j with
  | zero =>
    intro a g h1 h2 x hx
    simp only [pow_zero] at h1 h2
    simp only [pow_zero, bsLoopT, Nat.reduceDiv, one_ne_zero, if_false] at hx
    have hx' : x = a := by
      cases hp : probe a with
      | some e =>
        by_cases hc : cond e <;> simp [hp, hc, bsLoopT] at hx <;> exact hx
      | none =>
        simp [hp, bsLoopT] at hx
        exact hx
    omega
  | succ j ih =>
    intro a g h1 h2 x hx
    have hpow : 2 ^ (j + 1) = 2 ^ j + 2 ^ j := by
      rw [pow_succ]
      ring
    have hj0 : 1 ≤ 2 ^ j := Nat.one_le_two_pow
    have hstep : 2 ^ (j + 1) / 2 = 2 ^ j := by omega
    have hne : 2 ^ (j + 1) ≠ 0 := by omega
    simp only [bsLoopT, hstep, hne, if_false] at hx
    cases hp : probe a with
    | some e =>
      by_cases hc : cond e
      · simp only [hp, hc, if_true, List.mem_cons] at hx
        rcases hx with rfl | hx
        · omega
        · exact ih (a + 2 ^ j) (some e) (by omega) (by omega) x hx
      · simp only [hp, hc, if_false, List.mem_cons] at hx
        rcases hx with rfl | hx
        · omega
        · exact ih (a - 2 ^ j) g (by omega) (by omega) x hx
    | none =>
      simp only [hp, List.mem_cons] at hx
      rcases hx with rfl | hx
      · omega
      · exact ih (a - 2 ^ j) g (by omega) (by omega) x hx

/-- Helper: one failing iteration of the exact-arithmetic loop moves
`attempt` down by the halved step and keeps the recorded candidate. -/
theorem bsLoopT_succ_fail (probe : Nat → Option E) (cond : E → Bool) (j a : Nat)
    (g : Option E) (hq : bsQual probe cond a = false)
    (hstep : 2 ^ (j + 1) / 2 = 2 ^ j) (hne : 2 ^ (j + 1) ≠ 0) :
    (bsLoopT probe cond (j + 1 + 1) a (2 ^ (j + 1)) g).1 =
      (bsLoopT probe cond (j + 1) (a - 2 ^ j) (2 ^ j) g).1 := by
  unfold bsQual at hq
  cases hp : probe a with
  | none => simp [bsLoopT, hstep, hne, hp]
  | some e =>
    rw [hp] at hq
    have hq2 : cond e = false := hq
    simp [bsLoopT, hstep, hne, hp, hq2]

/-- Correctness of the search loop: under the loop invariant, with a
monotone (downward-closed) qualifying predicate, the loop returns the
probe at the greatest qualifying integer in `[1, 2 ^ w - 1]`, and `none`
when no integer in that interval qualifies. -/
theorem bsLoopT_spec (probe : Nat → Option E) (cond : E → Bool) (w : Nat)
    (hmono : ∀ a b, a ≤ b → bsQual probe cond b = true → bsQual probe cond a = true) :
    ∀ j a g, 2 ^ j ≤ a → a + 2 ^ j ≤ 2 ^ w →
      (∀ b, a + 2 ^ j ≤ b → b ≤ 2 ^ w - 1 → bsQual probe cond b = false) →
      (1 ≤ a - 2 ^ j → bsQual probe cond (a - 2 ^ j) = true ∧ g = probe (a - 2 ^ j)) →
      (a = 2 ^ j → g = none) →
      (bsLoopT probe cond (j + 1) a (2 ^ j) g).1 =
        if 1 ≤ Nat.findGreatest (fun b => bsQual probe cond b = true) (2 ^ w - 1)
        then probe (Nat.findGreatest (fun b => bsQual probe cond b = true) (2 ^ w - 1))
        else none := by
  intro j
  induction j with
  | zero =>
    intro a g h1 h2 hB hC hC2
    simp only [pow_zero] at h1 h2 hB hC hC2
    cases hp : probe a with
    | some e =>
      by_cases hc : cond e
      · have hqa : bsQual probe cond a = true := by simp [bsQual, hp, hc]
        have hM : Nat.findGreatest (fun b => bsQual probe cond b = true) (2 ^ w - 1) = a := by
          rw [Nat.findGreatest_eq_iff]
          refine ⟨by omega, fun _ => hqa, ?_⟩
          intro n hn hle
          simp [hB n (by omega) hle]
        have hLHS : (bsLoopT probe cond (0 + 1) a (2 ^ 0) g).1 = some e := by
          simp [bsLoopT, hp, hc]
        rw [hLHS, hM, if_pos (by omega : 1 ≤ a), hp]
      · have hqa : bsQual probe cond a = false := by simp [bsQual, hp, hc]
        have hLHS : (bsLoopT probe cond (0 + 1) a (2 ^ 0) g).1 = g := by
          simp [bsLoopT, hp, hc]
        rw [hLHS]
        by_cases ha1 : a = 1
        · have hM : Nat.findGreatest (fun b => bsQual probe cond b = true) (2 ^ w - 1) = 0 := by
            rw [Nat.findGreatest_eq_zero_iff]
            intro n hn hle
            by_cases hna : n = a
            · rw [hna]
              simp [hqa]
            · simp [hB n (by omega) hle]
          rw [hM, if_neg (by omega)]
          exact hC2 (by omega)
        · obtain ⟨hq1, hg⟩ := hC (by omega)
          have hM : Nat.findGreatest (fun b => bsQual probe cond b = true) (2 ^ w - 1)
              = a - 1 := by
            rw [Nat.findGreatest_eq_iff]
            refine ⟨by omega, fun _ => hq1, ?_⟩
            intro n hn hle
            by_cases hna : n = a
            · rw [hna]
              simp [hqa]
            · simp [hB n (by omega) hle]
          rw [hM, if_pos (by omega)]
          exact hg
    | none =>
      have hqa : bsQual probe cond a = false := by simp [bsQual, hp]
      have hLHS : (bsLoopT probe cond (0 + 1) a (2 ^ 0) g).1 = g := by
        simp [bsLoopT, hp]
      rw [hLHS]
      by_cases ha1 : a = 1
      · have hM : Nat.findGreatest (fun b => bsQual probe cond b = true) (2 ^ w - 1) = 0 := by
          rw [Nat.findGreatest_eq_zero_iff]
          intro n hn hle
          by_cases hna : n = a
          · rw [hna]
            simp [hqa]
          · simp [hB n (by omega) hle]
        rw [hM, if_neg (by omega)]
        exact hC2 (by omega)
      · obtain ⟨hq1, hg⟩ := hC (by omega)
        have hM : Nat.findGreatest (fun b => bsQual probe cond b = true) (2 ^ w - 1)
            = a - 1 := by
          rw [Nat.findGreatest_eq_iff]
          refine ⟨by omega, fun _ => hq1, ?_⟩
          intro n hn hle
          by_cases hna : n = a
          · rw [hna]
            simp [hqa]
          · simp [hB n (by omega) hle]
        rw [hM, if_pos (by omega)]
        exact hg
  | succ j ih =>
    intro a g h1 h2 hB hC hC2
    have hpow : 2 ^ (j + 1) = 2 ^ j + 2 ^ j := by
      rw [pow_succ]
      ring
    have hj0 : 1 ≤ 2 ^ j := Nat.one_le_two_pow
    have hstep : 2 ^ (j + 1) / 2 = 2 ^ j := by omega
    have hne2 : 2 ^ (j + 1) ≠ 0 := by omega
    have hsub : a - 2 ^ j + 2 ^ j = a := Nat.sub_add_cancel (by omega)
    by_cases hq : bsQual probe cond a = true
    · obtain ⟨e, hp, hc⟩ : ∃ e, probe a = some e ∧ cond e = true := by
        unfold bsQual at hq
        cases hp : probe a with
        | none =>
          rw [hp] at hq
          cases hq
        | some e =>
          rw [hp] at hq
          exact ⟨e, rfl, hq⟩
      have hLHS : (bsLoopT probe cond (j + 1 + 1) a (2 ^ (j + 1)) g).1 =
          (bsLoopT probe cond (j + 1) (a + 2 ^ j) (2 ^ j) (some e)).1 := by
        simp [bsLoopT, hstep, hne2, hp, hc]
      rw [hLHS]
      refine ih (a + 2 ^ j) (some e) (by omega) (by omega) ?_ ?_ ?_
      · intro b hb hble
        exact hB b (by omega) hble
      · intro hb
        rw [Nat.add_sub_cancel]
        exact ⟨hq, hp.symm⟩
      · intro hb
        exfalso
        omega
    · have hq' : bsQual probe cond a = false := by
        cases hqq : bsQual probe cond a
        · rfl
        · exact absurd hqq hq
      rw [bsLoopT_succ_fail probe cond j a g hq' hstep hne2]
      refine ih (a - 2 ^ j) g (by omega) (by omega) ?_ ?_ ?_
      · intro b hb hble
        rw [hsub] at hb
        cases hqb : bsQual probe cond b
        · rfl
        · exact absurd (hmono a b hb hqb) (by simp [hq'])
      · intro hb
        have heq : a - 2 ^ j - 2 ^ j = a - 2 ^ (j + 1) := by omega
        rw [heq]
        exact hC (by omega)
      · intro hb
        exact hC2 (by omega)

/-! ### Claim C9: the probe domain never leaves `[0, MAX]` -/

/-- Claim C9: entered with `attempt = step = MAX / 2 + 1` as in
`find_max` and `find_pred`, the wrapping-arithmetic search loop
coincides with the exact-arithmetic loop — `attempt + step` and
`attempt - step` never wrap below `0` or above `MAX` — and every value
taken by `attempt` stays within `[1, 2 ^ w - 1] ⊆ [0, MAX]`. -/
theorem bsLoop_attempt_in_range (probe : Nat → Option E) (cond : E → Bool)
    (w : Nat) (hw : 1 ≤ w) :
    bsLoop probe cond w w ((2 ^ w - 1) / 2 + 1) ((2 ^ w - 1) / 2 + 1) none =
      (bsLoopT probe cond w ((2 ^ w - 1) / 2 + 1) ((2 ^ w - 1) / 2 + 1) none).1 ∧
    ∀ x ∈ (bsLoopT probe cond w ((2 ^ w - 1) / 2 + 1) ((2 ^ w - 1) / 2 + 1) none).2,
      1 ≤ x ∧ x ≤ 2 ^ w - 1 := by
  obtain ⟨j, rfl⟩ : ∃ j, w = j + 1 := ⟨w - 1, by omega⟩
  rw [bs_start_eq j]
  have hpow : 2 ^ (j + 1) = 2 ^ j + 2 ^ j := by
    rw [pow_succ]
    ring
  constructor
  · exact bsLoop_eq_bsLoopT probe cond (j + 1) j (2 ^ j) none (le_refl _) (by omega)
  · exact bsLoopT_trace_bounds probe cond (j + 1) j (2 ^ j) none (le_refl _) (by omega)

/-- Witness for C9 at `w = 8` with a probe that never finds an entry. -/
theorem bsLoop_attempt_in_range_witness :
    bsLoop (fun _ => (none : Option Nat)) (fun _ => true) 8 8 ((2 ^ 8 - 1) / 2 + 1)
        ((2 ^ 8 - 1) / 2 + 1) none =
      (bsLoopT (fun _ => (none : Option Nat)) (fun _ => true) 8 ((2 ^ 8 - 1) / 2 + 1)
        ((2 ^ 8 - 1) / 2 + 1) none).1 ∧
    (bsLoopT (fun _ => (none : Option Nat)) (fun _ => true) 8 ((2 ^ 8 - 1) / 2 + 1)
        ((2 ^ 8 - 1) / 2 + 1) none).2.all
      (fun x => decide (1 ≤ x) && decide (x ≤ 2 ^ 8 - 1)) = true := by
  have h := bsLoop_attempt_in_range (fun _ => (none : Option Nat)) (fun _ => true) 8
    (by decide)
  refine ⟨h.1, ?_⟩
  rw [List.all_eq_true]
  intro x hx
  have hb := h.2 x hx
  simp only [Bool.and_eq_true, decide_eq_true_eq]
  exact ⟨hb.1, by simpa using hb.2⟩

/-! ### Claim C1: `find_max` against the linear scan -/

/-- Helper for C1: the `find_max` loop's qualifying predicate on a
`Nat`-keyed table holds at `a` exactly when some stored key is at least
`a`. -/
theorem bsQual_findMax (tbl : List (Nat × V)) (a : Nat) :
    bsQual (fun u => scanNextL natLe tbl (id u)) (fun _ => true) a = true ↔
      ∃ x ∈ tbl, a ≤ x.1 := by
  unfold bsQual scanNextL
  cases hf : List.find? (fun e => natLe a e.1) tbl with
  | none =>
    simp only [id_eq, hf]
    constructor
    · intro h
      cases h
    · rintro ⟨x, hx, hax⟩
      rw [List.find?_eq_none] at hf
      have := hf x hx
      simp [natLe] at this
      omega
  | some e =>
    simp only [id_eq, hf]
    constructor
    · intro _
      have hmem := List.mem_of_find?_eq_some hf
      have hp := List.find?_some hf
      exact ⟨e, hmem, by simpa [natLe] using hp⟩
    · intro _
      trivial

/-- Claim C1: on a sorted table of `w`-bit unsigned keys, `find_max`
(`Reader::max`) returns exactly the last entry of the linear scan
`iter()` — in particular `none` exactly when the table is empty, and a
table whose only entry is at the minimum key `0` is found through the
fallback `get`. -/
theorem find_max_eq_linear_scan (w : Nat) (hw : 1 ≤ w) (tbl : List (Nat × V))
    (hsort : List.Pairwise (fun a b => a.1 < b.1) tbl)
    (hbound : ∀ e ∈ tbl, e.1 < 2 ^ w) :
    findMaxNat w tbl = tbl.getLast? := by
  obtain ⟨j, rfl⟩ : ∃ j, w = j + 1 := ⟨w - 1, by omega⟩
  have hpow : 2 ^ (j + 1) = 2 ^ j + 2 ^ j := by
    rw [pow_succ]
    ring
  have hj0 : 1 ≤ 2 ^ j := Nat.one_le_two_pow
  have hmono : ∀ a b, a ≤ b →
      bsQual (fun u => scanNextL natLe tbl (id u)) (fun _ => true) b = true →
      bsQual (fun u => scanNextL natLe tbl (id u)) (fun _ => true) a = true := by
    intro a b hab hb
    rw [bsQual_findMax] at hb ⊢
    obtain ⟨x, hx, hbx⟩ := hb
    exact ⟨x, hx, le_trans hab hbx⟩
  have heq := bsLoop_eq_bsLoopT (fun a => scanNextL natLe tbl (id a)) (fun _ => true)
    (j + 1) j (2 ^ j) none (le_refl _) (by omega)
  have hloop := bsLoopT_spec (fun a => scanNextL natLe tbl (id a)) (fun _ => true) (j + 1)
    hmono j (2 ^ j) none (le_refl _) (by omega) ?hB ?hC ?hC2
  case hB =>
    intro b hb1 hb2
    exact absurd hb2 (by omega)
  case hC =>
    intro h
    exact absurd h (by omega)
  case hC2 =>
    intro _
    rfl
  unfold findMaxNat find_max
  rw [bs_start_eq j]
  dsimp only
  rw [heq, hloop]
  rcases List.eq_nil_or_concat' tbl with rfl | ⟨L, b, rfl⟩
  · have hM0 : Nat.findGreatest
        (fun b => bsQual (fun u => scanNextL natLe ([] : List (Nat × V)) (id u))
          (fun _ => true) b = true) (2 ^ (j + 1) - 1) = 0 := by
      rw [Nat.findGreatest_eq_zero_iff]
      intro n hn hle
      simp [bsQual, scanNextL]
    rw [hM0, if_neg (show ¬ (1 ≤ 0) by omega)]
    rfl
  · obtain ⟨b1, b2⟩ := b
    have hmax : ∀ x ∈ L, x.1 < b1 := by
      intro x hx
      have := (List.pairwise_append.mp hsort).2.2 x hx (b1, b2) (List.mem_singleton.mpr rfl)
      exact this
    by_cases hb0 : b1 = 0
    · subst hb0
      have hLnil : L = [] := by
        cases L with
        | nil => rfl
        | cons y ys => exact absurd (hmax y (List.mem_cons_self _ _)) (by omega)
      subst hLnil
      have hM0 : Nat.findGreatest
          (fun b => bsQual (fun u => scanNextL natLe ([] ++ [((0 : Nat), b2)]) (id u))
            (fun _ => true) b = true) (2 ^ (j + 1) - 1) = 0 := by
        rw [Nat.findGreatest_eq_zero_iff]
        intro n hn hle hq
        rw [bsQual_findMax] at hq
        obtain ⟨x, hx, hnx⟩ := hq
        rw [List.nil_append, List.mem_singleton] at hx
        subst hx
        omega
      rw [hM0, if_neg (show ¬ (1 ≤ 0) by omega)]
      rfl
    · have hqb : bsQual (fun u => scanNextL natLe (L ++ [(b1, b2)]) (id u))
          (fun _ => true) b1 = true := by
        rw [bsQual_findMax]
        exact ⟨(b1, b2), List.mem_append_right _ (List.mem_singleton.mpr rfl), le_refl _⟩
      have hbb : b1 < 2 ^ (j + 1) :=
        hbound (b1, b2) (List.mem_append_right _ (List.mem_singleton.mpr rfl))
      have hMb : Nat.findGreatest
          (fun b => bsQual (fun u => scanNextL natLe (L ++ [(b1, b2)]) (id u))
            (fun _ => true) b = true) (2 ^ (j + 1) - 1) = b1 := by
        rw [Nat.findGreatest_eq_iff]
        refine ⟨by omega, fun _ => hqb, ?_⟩
        intro n hn hle hq
        rw [bsQual_findMax] at hq
        obtain ⟨x, hx, hnx⟩ := hq
        rcases List.mem_append.mp hx with hxL | hxb
        · have := hmax x hxL
          omega
        · rw [List.mem_singleton] at hxb
          subst hxb
          omega
      have hprobeb : scanNextL natLe (L ++ [(b1, b2)]) b1 = some (b1, b2) := by
        unfold scanNextL
        rw [List.find?_append]
        have hnone : List.find? (fun e => natLe b1 e.1) L = none := by
          rw [List.find?_eq_none]
          intro x hx
          have := hmax x hx
          simp [natLe]
          omega
        rw [hnone, Option.none_or]
        exact List.find?_cons_of_pos _ (by simp [natLe])
      rw [hMb, if_pos (show 1 ≤ b1 by omega)]
      simp only [id_eq, hprobeb]
      rw [List.getLast?_concat]
      rfl

/-- Witness for C1: a table whose only entry is at the minimum key `0`
(the fallback-`get` case) at `w = 8`. -/
theorem find_max_eq_linear_scan_witness :
    findMaxNat 8 [((0 : Nat), (42 : Nat))] = some (0, 42) := by
  have h := find_max_eq_linear_scan 8 (by omega) [((0 : Nat), (42 : Nat))]
    (by simp) (by decide)
  exact h.trans (by decide)

/-! ### Claim C2: the `find_pred` fallback bug at key 0 -/

/-- Claim C2 (failing input): on the table `{0 ↦ 42}` with probe key `0`
and `inclusive = false`, no stored key is less than `0`, yet the
fallback `get` of `find_pred` does not re-check the predicate, so the
code returns the entry at key `0` instead of `none`. -/
theorem find_pred_zero_fallback_bug :
    findPredNat 8 [((0 : Nat), (42 : Nat))] 0 false = some (0, 42) := by
  decide

/-! ### Claim C8: timestamp `pred_incl` and composite probe keys -/

/-- Claim C8 (failing input): with a single secondary entry at
`(timestamp 5, key 3)` (key above the minimum key), `pred_incl(5)`
returns `none` although the greatest timestamp at most `5` with an entry
is `5`: the search only probes composite keys `(t, min_key)` and its
inclusive condition `(t, k) ≤ (5, min_key)` rejects the entry
`(5, 3)`. -/
theorem tsPredIncl_misses_equal_timestamp :
    tsPredIncl 64 [(((5 : Nat), (3 : Nat)), ())] 5 = none ∧
    ((((5 : Nat), (3 : Nat)), ()) ∈ [(((5 : Nat), (3 : Nat)), ())]) := by
  exact ⟨by decide, by decide⟩

end SledTable
